import Mathlib

/-!
# Verification of `spotify-backup.py`

A shallow embedding of the core of the `spotify-backup` program:
the paginated, retrying API client (`SpotifyAPI.get` / `SpotifyAPI.list`),
the OAuth token-capture handler (`_AuthorizationHandler.do_GET`),
the curses selection TUI (`tui_select_playlists`), and the
track-sorting step of `main`.  Theorems about the embedding settle the
specification's testable properties.
-/

namespace SpotifyBackup

/-! ## PagedClient: `SpotifyAPI.list`

A server response page carries `items`, a `next` cursor (modelled as a
`Bool`: `true` when `next` is a URL, `false` when it is null) and the
server-reported `total`.  A run of `SpotifyAPI.list` observes a sequence
of pages: the first is the initial `get`, each later one is the `get` of
the previous page's `next` URL. -/

structure Page (α : Type) where
  items : List α
  next : Bool
  total : Nat
deriving DecidableEq

instance {α : Type} : Inhabited (Page α) := ⟨⟨[], false, 0⟩⟩

/-- Embeds the accumulation loop of `SpotifyAPI.list`: take the first
page's `items`, and while `next` is non-null fetch the following page
and append its `items`. -/
def listAll {α : Type} : List (Page α) → List α
  | [] => []
  | p :: rest => p.items ++ (if p.next then listAll rest else [])

/-- The page sequence is exactly a `next` chain: every page but the last
has a non-null `next`, and the last page's `next` is null. -/
def isChain {α : Type} : List (Page α) → Bool
  | [] => false
  | [p] => !p.next
  | p :: q :: rest => p.next && isChain (q :: rest)

/-! ## PagedClient: `SpotifyAPI.get`

`get` tries the request up to `tries` times (default 3).  Each attempt
either yields a parsed JSON value or fails (any exception from the
request, transport or JSON parse).  `transport i` is the outcome of
attempt number `i`.  Exhausting all attempts runs `sys.exit(1)`. -/

inductive GetResult (J : Type) where
  | ok (val : J)
  | exit (code : Nat)
deriving DecidableEq

/-- The retry loop body of `SpotifyAPI.get`: attempt index `i`, with
`fuel` attempts remaining; a successful attempt returns its value at
once, a failed one sleeps, logs and retries; running out of attempts is
`sys.exit(1)`. -/
def getAttempt {J : Type} (transport : Nat → Option J) : Nat → Nat → GetResult J
  | _, 0 => .exit 1
  | i, fuel + 1 =>
    match transport i with
    | some j => .ok j
    | none => getAttempt transport (i + 1) fuel

/-- `SpotifyAPI.get` with a retry bound of `tries` attempts. -/
def get {J : Type} (transport : Nat → Option J) (tries : Nat) : GetResult J :=
  getAttempt transport 0 tries

/-! ## TokenCapture: `_AuthorizationHandler.do_GET`

The handler pattern-matches the request path.  The token route extracts
the token with `re.search("access_token=([^&]*)", path).group(1)`:
the first occurrence of the literal `access_token=` followed by the
longest run of non-`&` characters. -/

/-- If `pat` is a prefix of `s`, return the rest of `s`; otherwise `none`. -/
def dropPattern : List Char → List Char → Option (List Char)
  | [], rest => some rest
  | _ :: _, [] => none
  | p :: ps, c :: cs => if c = p then dropPattern ps cs else none

/-- The regex group `([^&]*)`: the longest run of characters before a `&`. -/
def takeUntilAmp : List Char → List Char
  | [] => []
  | c :: cs => if c = '&' then [] else c :: takeUntilAmp cs

/-- `re.search` for the pattern `access_token=([^&]*)`: scan for the first
occurrence of the literal, and capture up to the next `&`. -/
def searchAccessToken : List Char → Option (List Char)
  | [] => none
  | c :: cs =>
    match dropPattern ("access_token=".toList) (c :: cs) with
    | some rest => some (takeUntilAmp rest)
    | none => searchAccessToken cs

/-- Token extraction from a request path, as in
`re.search("access_token=([^&]*)", self.path).group(1)`; `none` when the
regex does not match (in the program an `AttributeError` that aborts the
server loop). -/
def extractAccessToken (path : String) : Option String :=
  (searchAccessToken path.toList).map fun cs => String.mk cs

/-- `path.startswith(pat)` -/
def startsWithStr (pat s : String) : Bool :=
  (dropPattern pat.toList s.toList).isSome

/-- Outcome of one `do_GET` dispatch: the `/redirect` HTML page, a raised
`_Authorization` carrying the token (which terminates the capture loop),
a handler fault (regex mismatch on the token route), or a 404. -/
inductive HandlerResult where
  | redirectPage
  | captured (tok : String)
  | fault
  | notFound
deriving DecidableEq

/-- Embeds `_AuthorizationHandler.do_GET`: dispatch on the request path. -/
def handleGET (path : String) : HandlerResult :=
  if startsWithStr "/redirect" path then .redirectPage
  else if startsWithStr "/token?" path then
    match extractAccessToken path with
    | some t => .captured t
    | none => .fault
  else .notFound

/-- The `authorize` serving loop: handle one request at a time until a
handler raises `_Authorization`, which ends the loop and yields the
token; a handler fault also aborts the loop (`handle_error` re-raises),
with no token. -/
def authorizeLoop : List String → Option String
  | [] => none
  | path :: rest =>
    match handleGET path with
    | .captured t => some t
    | .fault => none
    | _ => authorizeLoop rest

/-! ## SelectionTUI: `tui_select_playlists`

State of the curses loop: the (reorderable) playlist list, the cursor
row, and the `selected` list.  One key is read per iteration.  Playlists
are values of an arbitrary type `P` with decidable equality (Python dict
equality). -/

inductive Key where
  | up
  | down
  | space
  | plus
  | minus
  | enter
deriving DecidableEq

structure TuiState (P : Type) where
  playlists : List P
  cursor : Nat
  selected : List P
deriving DecidableEq

/-- Python `list.remove(p)`: drop the first element equal to `p`. -/
def removeFirst {P : Type} [DecidableEq P] (p : P) : List P → List P
  | [] => []
  | q :: qs => if q = p then qs else q :: removeFirst p qs

/-- Swap the elements at positions `n` and `n + 1` (the tuple assignment
`playlists[i], playlists[j] = playlists[j], playlists[i]` for the
adjacent indices used by the move-up / move-down keys). -/
def swapAdjacent {P : Type} : List P → Nat → List P
  | a :: b :: rest, 0 => b :: a :: rest
  | a :: rest, n + 1 => a :: swapAdjacent rest n
  | l, _ => l

/-- One iteration of the `tui_select_playlists` key loop (the Enter key
is handled by the loop itself, which breaks; `step` leaves the state
unchanged on it). -/
def step {P : Type} [DecidableEq P] [Inhabited P] (s : TuiState P) : Key → TuiState P
  | .up =>
    if s.cursor > 0 then { s with cursor := s.cursor - 1 } else s
  | .down =>
    if s.cursor < s.playlists.length - 1 then { s with cursor := s.cursor + 1 } else s
  | .space =>
    let p := s.playlists.getD s.cursor default
    if p ∈ s.selected then { s with selected := removeFirst p s.selected }
    else { s with selected := s.selected ++ [p] }
  | .plus =>
    if s.cursor > 0 then
      let ps := swapAdjacent s.playlists (s.cursor - 1)
      { playlists := ps
        cursor := s.cursor - 1
        selected := ps.filter fun q => decide (q ∈ s.selected) }
    else s
  | .minus =>
    if s.cursor < s.playlists.length - 1 then
      let ps := swapAdjacent s.playlists s.cursor
      { playlists := ps
        cursor := s.cursor + 1
        selected := ps.filter fun q => decide (q ∈ s.selected) }
    else s
  | .enter => s

/-- The key loop: process keys one at a time, stopping at the first
Enter (`break`); keys after Enter are never read. -/
def runTui {P : Type} [DecidableEq P] [Inhabited P] (s : TuiState P) : List Key → TuiState P
  | [] => s
  | k :: ks => if k = Key.enter then s else runTui (step s k) ks

/-- The state at entry to `curses_main`: cursor at row 0, nothing selected. -/
def initState {P : Type} (ps : List P) : TuiState P :=
  ⟨ps, 0, []⟩

/-- `tui_select_playlists(playlists)` driven by a keystroke script:
run the loop and return `selected` as it stands at the break. -/
def tuiSelect {P : Type} [DecidableEq P] [Inhabited P] (ps : List P) (keys : List Key) : List P :=
  (runTui (initState ps) keys).selected

/-- The number of times the Space key toggles playlist `p` along a run:
a Space counts for `p` exactly when `p` is the playlist under the cursor
at that moment. -/
def toggleCount {P : Type} [DecidableEq P] [Inhabited P] (p : P) (s : TuiState P) : List Key → Nat
  | [] => 0
  | k :: ks =>
    if k = Key.enter then 0
    else
      (if k = Key.space ∧ s.playlists.getD s.cursor default = p then 1 else 0)
        + toggleCount p (step s k) ks

/-! ## ExportAssembler: the sort in `main`

Timestamps are seconds since the epoch (`datetime.fromisoformat` on the
ISO strings is order- and value-faithful, so an integer stands for the
parsed datetime).  The effective sort key of a track is its `added_at`
when present, else the playlist creation date — the code binds
`playlist_creation_date` to `created_at` as parsed, without the one
second the adjacent comment announces. -/

def effectiveSortKey (playlistCreatedAt : Int) (addedAt : Option Int) : Int :=
  match addedAt with
  | some t => t
  | none => playlistCreatedAt

structure Track where
  uri : String
  addedAt : Option Int
deriving DecidableEq

/-- The `key=lambda track: ...` of the sort in `main`. -/
def trackKey (playlistCreatedAt : Int) (t : Track) : Int :=
  effectiveSortKey playlistCreatedAt t.addedAt

/-- `playlist["tracks"].sort(key=..., reverse=True)`: Python's stable
sort, descending on the key (CPython's `reverse=True` keeps equal-key
elements in their original order). -/
def sortTracks (playlistCreatedAt : Int) (ts : List Track) : List Track :=
  ts.mergeSort fun a b => decide (trackKey playlistCreatedAt b ≤ trackKey playlistCreatedAt a)

/-! ## `main` after the TUI returns

If the TUI returns an empty selection, `main` logs a line and calls
`sys.exit(1)`, writing nothing; otherwise it goes on to assemble and
write the selected playlists. -/

/-- The check `if not selected_playlists` in `main`: the result is either
the log lines emitted together with `sys.exit` code, or the selection
passed on to assembly and writing. -/
def afterSelection {P : Type} (selected : List P) : List String × Except Nat (List P) :=
  if selected.isEmpty then
    (["No playlists selected in TUI. Adding all playlists."], Except.error 1)
  else ([], Except.ok selected)

/-! ## Theorems -/

/-- Auxiliary: along a well-formed `next` chain, the accumulation loop of
`SpotifyAPI.list` yields the concatenation of the pages' `items`. -/
theorem listAll_eq_join {α : Type} : ∀ ps : List (Page α), isChain ps = true →
    listAll ps = (ps.map Page.items).flatten
  | [], h => by simp [isChain] at h
  | [p], h => by
    simp only [isChain, Bool.not_eq_true'] at h
    simp [listAll, h]
  | p :: q :: rest, h => by
    simp only [isChain, Bool.and_eq_true] at h
    show p.items ++ (if p.next then listAll (q :: rest) else []) = _
    rw [if_pos h.1, listAll_eq_join (q :: rest) h.2]
    simp

/-- C1: for a paginated response sequence forming a `next` chain that ends
with a null `next`, `SpotifyAPI.list` returns exactly the concatenation of
the pages' `items` in page order; and when the server data satisfies the
paging invariant (the items across the chain sum to the reported total),
the returned length equals the final page's `total`. -/
theorem list_paginated {α : Type} (ps : List (Page α)) (h : isChain ps = true)
    (htot : (ps.map fun p => p.items.length).sum = (ps.getLastD default).total) :
    listAll ps = (ps.map Page.items).flatten ∧
    (listAll ps).length = (ps.getLastD default).total := by
  have hj := listAll_eq_join ps h
  refine ⟨hj, ?_⟩
  rw [hj, List.length_flatten, List.map_map]
  simpa [Function.comp] using htot

/-- Witness for C1 on a two-page chain. -/
theorem list_paginated_witness :
    listAll [(⟨[1, 2], true, 3⟩ : Page Nat), ⟨[3], false, 3⟩]
        = (([⟨[1, 2], true, 3⟩, ⟨[3], false, 3⟩] : List (Page Nat)).map Page.items).flatten ∧
    (listAll [(⟨[1, 2], true, 3⟩ : Page Nat), ⟨[3], false, 3⟩]).length
        = (([⟨[1, 2], true, 3⟩, ⟨[3], false, 3⟩] : List (Page Nat)).getLastD default).total :=
  list_paginated ([⟨[1, 2], true, 3⟩, ⟨[3], false, 3⟩] : List (Page Nat))
    (by decide) (by decide)

/-- C2: if the transport fails on the first two attempts and succeeds on
the third, `SpotifyAPI.get` returns the parsed result with no error
surfaced; if all 3 attempts fail, the run ends in `sys.exit(1)` — a
non-zero exit status — and no result reaches the caller. -/
theorem get_retry_policy {J : Type} :
    (∀ (transport : Nat → Option J) (j : J),
        transport 0 = none → transport 1 = none → transport 2 = some j →
        get transport 3 = GetResult.ok j) ∧
    (∀ transport : Nat → Option J,
        (∀ i, i < 3 → transport i = none) →
        get transport 3 = GetResult.exit 1 ∧ (1 : Nat) ≠ 0) := by
  constructor
  · intro transport j h0 h1 h2
    simp [get, getAttempt, h0, h1, h2]
  · intro transport h
    refine ⟨?_, by decide⟩
    simp [get, getAttempt, h 0 (by omega), h 1 (by omega), h 2 (by omega)]

/-- Witness for C2: a transport succeeding only on the third attempt, and
one failing always. -/
theorem get_retry_policy_witness :
    get (fun i => if i = 2 then some 7 else none) 3 = GetResult.ok 7 ∧
    (get (fun _ => (none : Option Nat)) 3 = GetResult.exit 1 ∧ (1 : Nat) ≠ 0) :=
  ⟨get_retry_policy.1 (fun i => if i = 2 then some 7 else none) 7 rfl rfl rfl,
   get_retry_policy.2 (fun _ => none) (fun _ _ => rfl)⟩

/-- C3: for a track with no `added_at` in a playlist created at `T`, the
sort key the code actually uses is `T` itself — the comment above the
binding says "add one second", but no second is added, so the key is not
`T + 1`. -/
theorem effectiveSortKey_missing_addedAt :
    effectiveSortKey 0 none = 0 ∧ effectiveSortKey 0 none ≠ 0 + 1 := by
  decide

/-- C6: with playlists `[A, B, C]` (as `[0, 1, 2]`), cursor on `B` and
exactly `B` selected, the move-up key yields `[B, A, C]` with the cursor
following `B` to index 0 and the selection still exactly `{B}` —
selection tracks playlist identity, not position. -/
theorem move_up_identity :
    step (⟨[0, 1, 2], 1, [1]⟩ : TuiState Nat) Key.plus
      = (⟨[1, 0, 2], 0, [1]⟩ : TuiState Nat) := by
  decide

/-- C7: when the TUI returns an empty selection, `main` logs a line and
terminates via `sys.exit(1)` — a non-zero status — passing nothing on to
assembly or file writing. -/
theorem emptySelection_fatal {P : Type} (selected : List P) (h : selected = []) :
    (afterSelection selected).2 = Except.error 1 ∧ (1 : Nat) ≠ 0 ∧
    (afterSelection selected).1 ≠ [] := by
  subst h
  refine ⟨rfl, by decide, by simp [afterSelection]⟩

/-- Witness for C7 at the empty selection. -/
theorem emptySelection_fatal_witness :
    (afterSelection ([] : List Nat)).2 = Except.error 1 ∧ (1 : Nat) ≠ 0 ∧
    (afterSelection ([] : List Nat)).1 ≠ [] :=
  emptySelection_fatal ([] : List Nat) rfl

/-- C8: on the path `/token?access_token=abc123&state=xyz` the handler
extracts exactly `abc123`, and the capture loop terminates on that
request, returning the token to the caller no matter what requests would
follow. -/
theorem token_route_extracts_and_terminates :
    handleGET "/token?access_token=abc123&state=xyz"
        = HandlerResult.captured "abc123" ∧
    ∀ rest : List String,
      authorizeLoop ("/token?access_token=abc123&state=xyz" :: rest)
        = some "abc123" := by
  have h : handleGET "/token?access_token=abc123&state=xyz"
      = HandlerResult.captured "abc123" := by decide
  exact ⟨h, fun rest => by simp [authorizeLoop, h]⟩

/-! ### Auxiliary facts about the adjacent swap and the key loop -/

theorem swapAdjacent_nil {P : Type} (n : Nat) : swapAdjacent ([] : List P) n = [] := by
  cases n <;> rfl

theorem swapAdjacent_zero {P : Type} (a b : P) (r : List P) :
    swapAdjacent (a :: b :: r) 0 = b :: a :: r := rfl

theorem swapAdjacent_succ {P : Type} (a : P) (r : List P) (n : Nat) :
    swapAdjacent (a :: r) (n + 1) = a :: swapAdjacent r n := by
  cases r <;> rfl

theorem swapAdjacent_singleton {P : Type} (a : P) (n : Nat) :
    swapAdjacent [a] n = [a] := by
  cases n <;> rfl

theorem length_swapAdjacent {P : Type} :
    ∀ (l : List P) (n : Nat), (swapAdjacent l n).length = l.length
  | [], n => by rw [swapAdjacent_nil]
  | [a], n => by rw [swapAdjacent_singleton]
  | a :: b :: r, 0 => rfl
  | a :: b :: r, n + 1 => by
    rw [swapAdjacent_succ]
    simp [length_swapAdjacent (b :: r) n]

theorem mem_swapAdjacent {P : Type} :
    ∀ (l : List P) (n : Nat) (p : P), p ∈ swapAdjacent l n ↔ p ∈ l
  | [], n, p => by rw [swapAdjacent_nil]
  | [a], n, p => by rw [swapAdjacent_singleton]
  | a :: b :: r, 0, p => by
    rw [swapAdjacent_zero]
    simp only [List.mem_cons]
    tauto
  | a :: b :: r, n + 1, p => by
    rw [swapAdjacent_succ]
    simp only [List.mem_cons, mem_swapAdjacent (b :: r) n p]

theorem swapAdjacent_swapAdjacent {P : Type} :
    ∀ (l : List P) (n : Nat), swapAdjacent (swapAdjacent l n) n = l
  | [], n => by rw [swapAdjacent_nil, swapAdjacent_nil]
  | [a], n => by rw [swapAdjacent_singleton, swapAdjacent_singleton]
  | a :: b :: r, 0 => rfl
  | a :: b :: r, n + 1 => by
    rw [swapAdjacent_succ, swapAdjacent_succ, swapAdjacent_swapAdjacent (b :: r) n]

theorem step_length {P : Type} [DecidableEq P] [Inhabited P] (s : TuiState P) (k : Key) :
    (step s k).playlists.length = s.playlists.length := by
  cases k <;> simp only [step] <;> split <;> simp [length_swapAdjacent]

theorem step_cursor_lt {P : Type} [DecidableEq P] [Inhabited P] (s : TuiState P) (k : Key)
    (h : s.cursor < s.playlists.length) :
    (step s k).cursor < (step s k).playlists.length := by
  cases k <;> simp only [step] <;> (try split) <;>
    (try simp only [length_swapAdjacent]) <;> omega

theorem runTui_cursor_lt {P : Type} [DecidableEq P] [Inhabited P] :
    ∀ (keys : List Key) (s : TuiState P), s.cursor < s.playlists.length →
      (runTui s keys).cursor < (runTui s keys).playlists.length ∧
      (runTui s keys).playlists.length = s.playlists.length
  | [], s, h => ⟨h, rfl⟩
  | k :: ks, s, h => by
    rw [runTui]
    split
    · exact ⟨h, rfl⟩
    · have ih := runTui_cursor_lt ks (step s k) (step_cursor_lt s k h)
      exact ⟨ih.1, ih.2.trans (step_length s k)⟩

/-- C9: for a non-empty playlist list, the cursor index stays strictly
below the (constant) list length after any sequence of keystrokes — the
cursor moves clamp at the boundaries and never wrap. -/
theorem cursor_in_bounds {P : Type} [DecidableEq P] [Inhabited P]
    (ps : List P) (keys : List Key) (h : 0 < ps.length) :
    (runTui (initState ps) keys).cursor < (runTui (initState ps) keys).playlists.length ∧
    (runTui (initState ps) keys).playlists.length = ps.length :=
  runTui_cursor_lt keys (initState ps) h

/-- Witness for C9 on a concrete playlist list and keystroke script. -/
theorem cursor_in_bounds_witness :
    (runTui (initState [0, 1, 2]) [Key.up, Key.down, Key.down, Key.down]).cursor
        < (runTui (initState [0, 1, 2]) [Key.up, Key.down, Key.down, Key.down]).playlists.length ∧
    (runTui (initState [0, 1, 2]) [Key.up, Key.down, Key.down, Key.down]).playlists.length
        = ([0, 1, 2] : List Nat).length :=
  cursor_in_bounds [0, 1, 2] [Key.up, Key.down, Key.down, Key.down] (by decide)

/-- C10: from a valid cursor position `i > 0`, move-up followed by
move-down restores the playlist order and the cursor, and leaves the
membership of the selection unchanged. -/
theorem move_up_down_roundtrip {P : Type} [DecidableEq P] [Inhabited P]
    (ps sel : List P) (i : Nat) (h0 : 0 < i) (hlen : i < ps.length)
    (hsub : ∀ p ∈ sel, p ∈ ps) :
    (step (step ⟨ps, i, sel⟩ Key.plus) Key.minus).playlists = ps ∧
    (step (step ⟨ps, i, sel⟩ Key.plus) Key.minus).cursor = i ∧
    ∀ p, p ∈ (step (step ⟨ps, i, sel⟩ Key.plus) Key.minus).selected ↔ p ∈ sel := by
  have hplus : step (⟨ps, i, sel⟩ : TuiState P) Key.plus
      = ⟨swapAdjacent ps (i - 1), i - 1,
         (swapAdjacent ps (i - 1)).filter fun q => decide (q ∈ sel)⟩ := by
    simp only [step]
    rw [if_pos h0]
  have hguard : i - 1 < (swapAdjacent ps (i - 1)).length - 1 := by
    rw [length_swapAdjacent]
    omega
  have hminus : step (⟨swapAdjacent ps (i - 1), i - 1,
        (swapAdjacent ps (i - 1)).filter fun q => decide (q ∈ sel)⟩ : TuiState P) Key.minus
      = ⟨swapAdjacent (swapAdjacent ps (i - 1)) (i - 1), i - 1 + 1,
         (swapAdjacent (swapAdjacent ps (i - 1)) (i - 1)).filter fun q =>
           decide (q ∈ (swapAdjacent ps (i - 1)).filter fun q => decide (q ∈ sel))⟩ := by
    simp only [step]
    rw [if_pos hguard]
  rw [hplus, hminus, swapAdjacent_swapAdjacent]
  refine ⟨rfl, show i - 1 + 1 = i by omega, fun p => ?_⟩
  simp only [List.mem_filter, decide_eq_true_eq, mem_swapAdjacent]
  constructor
  · rintro ⟨-, -, hp⟩
    exact hp
  · intro hp
    exact ⟨hsub p hp, hsub p hp, hp⟩

/-- Witness for C10 at `[A, B, C]` with cursor 1 and `B` selected. -/
theorem move_up_down_roundtrip_witness :
    (step (step (⟨[0, 1, 2], 1, [1]⟩ : TuiState Nat) Key.plus) Key.minus).playlists = [0, 1, 2] ∧
    (step (step (⟨[0, 1, 2], 1, [1]⟩ : TuiState Nat) Key.plus) Key.minus).cursor = 1 ∧
    ∀ p, p ∈ (step (step (⟨[0, 1, 2], 1, [1]⟩ : TuiState Nat) Key.plus) Key.minus).selected
        ↔ p ∈ ([1] : List Nat) :=
  move_up_down_roundtrip [0, 1, 2] [1] 1 (by decide) (by decide) (by decide)

/-- C4: the assembler's sort orders a playlist's tracks by their
effective timestamp in descending order (most recently added first) and
is stable: a pair of tracks with equal effective timestamps that appears
in some order in the input appears in the same order in the output. -/
theorem sortTracks_desc_stable (createdAt : Int) (ts : List Track) :
    (sortTracks createdAt ts).Pairwise
        (fun a b => trackKey createdAt b ≤ trackKey createdAt a) ∧
    ∀ a b : Track, trackKey createdAt a = trackKey createdAt b →
      [a, b].Sublist ts → [a, b].Sublist (sortTracks createdAt ts) := by
  have htrans : ∀ a b c : Track,
      decide (trackKey createdAt b ≤ trackKey createdAt a) = true →
      decide (trackKey createdAt c ≤ trackKey createdAt b) = true →
      decide (trackKey createdAt c ≤ trackKey createdAt a) = true := by
    intro a b c hab hbc
    simp only [decide_eq_true_eq] at hab hbc ⊢
    omega
  have htotal : ∀ a b : Track,
      (decide (trackKey createdAt b ≤ trackKey createdAt a)
        || decide (trackKey createdAt a ≤ trackKey createdAt b)) = true := by
    intro a b
    simp only [Bool.or_eq_true, decide_eq_true_eq]
    omega
  constructor
  · have h := List.sorted_mergeSort htrans htotal ts
    exact h.imp fun hab => by simpa using hab
  · intro a b hk hsub
    exact List.pair_sublist_mergeSort htrans htotal (by simp [hk]) hsub

/-! ### Selection membership along a TUI run

`selected` is only re-synced to the playlist order at reorder keys, so
the order of the returned list is not in general the final list order;
membership, however, is exactly "toggled an odd number of times". -/

theorem mem_removeFirst_subset {P : Type} [DecidableEq P] (p a : P) (l : List P)
    (h : a ∈ removeFirst p l) : a ∈ l := by
  induction l with
  | nil => simp [removeFirst] at h
  | cons q qs ih =>
    simp only [removeFirst] at h
    split at h
    · exact List.mem_cons_of_mem q h
    · rcases List.mem_cons.mp h with h1 | h2
      · subst h1
        exact List.mem_cons_self a qs
      · exact List.mem_cons_of_mem q (ih h2)

theorem nodup_removeFirst {P : Type} [DecidableEq P] (p : P) (l : List P)
    (h : l.Nodup) : (removeFirst p l).Nodup := by
  induction l with
  | nil => simp [removeFirst]
  | cons q qs ih =>
    rcases List.nodup_cons.mp h with ⟨hq, hqs⟩
    simp only [removeFirst]
    split
    · exact hqs
    · exact List.nodup_cons.mpr
        ⟨fun hmem => hq (mem_removeFirst_subset p q qs hmem), ih hqs⟩

theorem mem_removeFirst_iff {P : Type} [DecidableEq P] (p a : P) (l : List P)
    (h : l.Nodup) : a ∈ removeFirst p l ↔ a ∈ l ∧ a ≠ p := by
  induction l with
  | nil => simp [removeFirst]
  | cons q qs ih =>
    rcases List.nodup_cons.mp h with ⟨hq, hqs⟩
    simp only [removeFirst]
    split
    · rename_i hqp
      subst hqp
      simp only [List.mem_cons]
      constructor
      · intro ha
        exact ⟨Or.inr ha, fun hap => hq (hap ▸ ha)⟩
      · rintro ⟨h1 | h2, hne⟩
        · exact absurd h1 hne
        · exact h2
    · rename_i hqp
      simp only [List.mem_cons, ih hqs]
      constructor
      · rintro (h1 | ⟨h2, hne⟩)
        · subst h1
          exact ⟨Or.inl rfl, fun he => hqp he⟩
        · exact ⟨Or.inr h2, hne⟩
      · rintro ⟨h1 | h2, hne⟩
        · exact Or.inl h1
        · exact Or.inr ⟨h2, hne⟩

theorem swapAdjacent_perm {P : Type} :
    ∀ (l : List P) (n : Nat), List.Perm (swapAdjacent l n) l
  | [], n => by rw [swapAdjacent_nil]
  | [a], n => by rw [swapAdjacent_singleton]
  | a :: b :: r, 0 => by
    rw [swapAdjacent_zero]
    exact List.Perm.swap a b r
  | a :: b :: r, n + 1 => by
    rw [swapAdjacent_succ]
    exact (swapAdjacent_perm (b :: r) n).cons a

/-- The loop invariant of `curses_main`: the cursor is a valid index, the
playlist list is duplicate-free, and `selected` is a duplicate-free
sublist (as a set) of the playlists. -/
def Inv {P : Type} [DecidableEq P] [Inhabited P] (s : TuiState P) : Prop :=
  s.cursor < s.playlists.length ∧ s.playlists.Nodup ∧ s.selected.Nodup ∧
    ∀ p ∈ s.selected, p ∈ s.playlists

theorem step_playlists_perm {P : Type} [DecidableEq P] [Inhabited P]
    (s : TuiState P) (k : Key) : List.Perm (step s k).playlists s.playlists := by
  cases k <;> simp only [step] <;> (try split) <;>
    first
      | exact List.Perm.refl _
      | exact swapAdjacent_perm _ _

theorem mem_step_selected_space {P : Type} [DecidableEq P] [Inhabited P]
    (s : TuiState P) (hsel : s.selected.Nodup) (p : P) :
    p ∈ (step s Key.space).selected ↔
      (if s.playlists.getD s.cursor default = p then p ∉ s.selected
       else p ∈ s.selected) := by
  have hstep : step s Key.space =
      if s.playlists.getD s.cursor default ∈ s.selected
      then { s with selected :=
              removeFirst (s.playlists.getD s.cursor default) s.selected }
      else { s with selected :=
              s.selected ++ [s.playlists.getD s.cursor default] } := rfl
  rw [hstep]
  split_ifs with hmem hp hp <;> dsimp only
  · subst hp
    rw [mem_removeFirst_iff _ _ _ hsel]
    constructor
    · rintro ⟨-, hne⟩
      exact absurd rfl hne
    · intro hno
      exact absurd hmem hno
  · rw [mem_removeFirst_iff _ _ _ hsel]
    constructor
    · exact fun h => h.1
    · exact fun h => ⟨h, fun he => hp he.symm⟩
  · subst hp
    constructor
    · intro hm
      exact hmem
    · intro hm
      exact List.mem_append.mpr (Or.inr (List.mem_singleton.mpr rfl))
  · rw [List.mem_append, List.mem_singleton]
    constructor
    · rintro (h1 | h2)
      · exact h1
      · exact absurd h2 fun he => hp he.symm
    · exact Or.inl

theorem mem_step_selected_of_ne_space {P : Type} [DecidableEq P] [Inhabited P]
    (s : TuiState P) (hsub : ∀ q ∈ s.selected, q ∈ s.playlists)
    (k : Key) (hk : k ≠ Key.space) (p : P) :
    p ∈ (step s k).selected ↔ p ∈ s.selected := by
  cases k with
  | space => exact absurd rfl hk
  | up =>
    simp only [step]
    split <;> exact Iff.rfl
  | down =>
    simp only [step]
    split <;> exact Iff.rfl
  | enter => exact Iff.rfl
  | plus =>
    simp only [step]
    split
    · show p ∈ (swapAdjacent s.playlists (s.cursor - 1)).filter
          (fun q => decide (q ∈ s.selected)) ↔ p ∈ s.selected
      simp only [List.mem_filter, decide_eq_true_eq, mem_swapAdjacent]
      exact ⟨fun h => h.2, fun h => ⟨hsub p h, h⟩⟩
    · exact Iff.rfl
  | minus =>
    simp only [step]
    split
    · show p ∈ (swapAdjacent s.playlists s.cursor).filter
          (fun q => decide (q ∈ s.selected)) ↔ p ∈ s.selected
      simp only [List.mem_filter, decide_eq_true_eq, mem_swapAdjacent]
      exact ⟨fun h => h.2, fun h => ⟨hsub p h, h⟩⟩
    · exact Iff.rfl

theorem getD_mem_of_lt {P : Type} (l : List P) (n : Nat) (d : P)
    (h : n < l.length) : l.getD n d ∈ l := by
  rw [List.getD_eq_getElem?_getD, List.getElem?_eq_getElem h]
  exact List.getElem_mem h

theorem step_Inv {P : Type} [DecidableEq P] [Inhabited P]
    (s : TuiState P) (k : Key) (h : Inv s) : Inv (step s k) := by
  obtain ⟨hc, hpl, hsel, hsub⟩ := h
  refine ⟨step_cursor_lt s k hc,
    ((step_playlists_perm s k).nodup_iff).mpr hpl, ?_, ?_⟩
  · cases k with
    | space =>
      have hstep : step s Key.space =
          if s.playlists.getD s.cursor default ∈ s.selected
          then { s with selected :=
                  removeFirst (s.playlists.getD s.cursor default) s.selected }
          else { s with selected :=
                  s.selected ++ [s.playlists.getD s.cursor default] } := rfl
      rw [hstep]
      split_ifs with hmem
      · exact nodup_removeFirst _ _ hsel
      · show (s.selected ++ [s.playlists.getD s.cursor default]).Nodup
        refine List.Nodup.append hsel (List.nodup_singleton _) ?_
        intro a ha hb
        rw [List.mem_singleton] at hb
        subst hb
        exact hmem ha
    | up =>
      simp only [step]
      split <;> exact hsel
    | down =>
      simp only [step]
      split <;> exact hsel
    | enter => exact hsel
    | plus =>
      simp only [step]
      split
      · show ((swapAdjacent s.playlists (s.cursor - 1)).filter
            (fun q => decide (q ∈ s.selected))).Nodup
        exact List.Nodup.filter _
          (((swapAdjacent_perm s.playlists (s.cursor - 1)).nodup_iff).mpr hpl)
      · exact hsel
    | minus =>
      simp only [step]
      split
      · show ((swapAdjacent s.playlists s.cursor).filter
            (fun q => decide (q ∈ s.selected))).Nodup
        exact List.Nodup.filter _
          (((swapAdjacent_perm s.playlists s.cursor).nodup_iff).mpr hpl)
      · exact hsel
  · intro p hp
    rw [((step_playlists_perm s k).mem_iff)]
    by_cases hk : k = Key.space
    · subst hk
      rw [mem_step_selected_space s hsel p] at hp
      split at hp
      · rename_i hp0
        subst hp0
        exact getD_mem_of_lt s.playlists s.cursor default hc
      · exact hsub p hp
    · rw [mem_step_selected_of_ne_space s hsub k hk p] at hp
      exact hsub p hp

/-- Along any run of the key loop, a playlist is in `selected` at the end
iff its membership at the start differs from the parity of the number of
times it was toggled. -/
theorem runTui_mem_selected {P : Type} [DecidableEq P] [Inhabited P] :
    ∀ (keys : List Key) (s : TuiState P), Inv s → ∀ p : P,
      (p ∈ (runTui s keys).selected ↔
        (p ∈ s.selected ↔ toggleCount p s keys % 2 = 0))
  | [], s, h, p => by
    simp [runTui, toggleCount]
  | k :: ks, s, h, p => by
    by_cases hk : k = Key.enter
    · subst hk
      simp [runTui, toggleCount]
    · rw [runTui, if_neg hk, toggleCount, if_neg hk]
      have hInv := step_Inv s k h
      have ih := runTui_mem_selected ks (step s k) hInv p
      by_cases hsp : k = Key.space
      · subst hsp
        by_cases hp : s.playlists.getD s.cursor default = p
        · rw [if_pos ⟨rfl, hp⟩]
          rw [ih, mem_step_selected_space s h.2.2.1 p, if_pos hp]
          have hpar : ((1 + toggleCount p (step s Key.space) ks) % 2 = 0) ↔
              ¬(toggleCount p (step s Key.space) ks % 2 = 0) := by omega
          rw [hpar]
          tauto
        · rw [if_neg (fun hc => hp hc.2), Nat.zero_add]
          rw [ih, mem_step_selected_space s h.2.2.1 p, if_neg hp]
      · rw [if_neg (fun hc => hsp hc.1), Nat.zero_add]
        rw [ih, mem_step_selected_of_ne_space s h.2.2.2 k hsp p]

/-- C5 counterexample to the claimed ordering: with playlists
`[A, B, C]` (as `[0, 1, 2]`) and keystrokes down, toggle, up, toggle,
confirm, the TUI returns `[B, A]` while the playlist list still reads
`[A, B, C]` — the returned order is toggle order, not the final list
order the claim announces. -/
theorem tuiSelect_not_final_order :
    tuiSelect [0, 1, 2] [Key.down, Key.space, Key.up, Key.space, Key.enter] = [1, 0] ∧
    (runTui (initState [0, 1, 2])
        [Key.down, Key.space, Key.up, Key.space, Key.enter]).playlists = [0, 1, 2] ∧
    tuiSelect [0, 1, 2] [Key.down, Key.space, Key.up, Key.space, Key.enter] ≠
      List.filter
        (fun q => decide
          (q ∈ tuiSelect [0, 1, 2] [Key.down, Key.space, Key.up, Key.space, Key.enter]))
        (runTui (initState [0, 1, 2])
          [Key.down, Key.space, Key.up, Key.space, Key.enter]).playlists := by
  decide

/-- C5 (amended): for a non-empty, duplicate-free playlist list and any
keystroke sequence, `tui_select_playlists` returns exactly the set of
playlists toggled an odd number of times; the order of the returned list
is the toggle insertion order, re-synced to the list order at each
reorder keystroke, not re-synced at confirm. -/
theorem tuiSelect_mem {P : Type} [DecidableEq P] [Inhabited P]
    (ps : List P) (keys : List Key) (hnd : ps.Nodup) (hne : 0 < ps.length) (p : P) :
    p ∈ tuiSelect ps keys ↔ toggleCount p (initState ps) keys % 2 = 1 := by
  have hInv : Inv (initState ps) :=
    ⟨hne, hnd, List.nodup_nil, fun q hq => absurd hq (List.not_mem_nil q)⟩
  have h := runTui_mem_selected keys (initState ps) hInv p
  simp only [tuiSelect]
  rw [h]
  simp only [initState, List.not_mem_nil, false_iff]
  omega

/-- Witness for C5 (amended) on a concrete list and keystroke script. -/
theorem tuiSelect_mem_witness :
    1 ∈ tuiSelect [0, 1, 2] [Key.down, Key.space, Key.enter] ↔
      toggleCount 1 (initState [0, 1, 2]) [Key.down, Key.space, Key.enter] % 2 = 1 :=
  tuiSelect_mem [0, 1, 2] [Key.down, Key.space, Key.enter] (by decide) (by decide) 1

end SpotifyBackup
